import Mathlib

/-!
Verification development for the `xx_bloomfilter` crate (`src/lib.rs`).

Shallow embedding conventions:

* `BitVec` (crate `bit_vec`) is embedded as `List Bool`; `BitVec::get`
  returns `Option Bool` (out-of-range reads give `none`), `BitVec::set`
  panics out of range (embedded as an `Option` guard), `BitVec::clear`
  sets every bit to `false` keeping the length, `BitVec::from_bytes`
  unpacks bytes most-significant-bit first, `BitVec::to_bytes` packs
  most-significant-bit first padding the last byte with `false` bits.
* `u64` values are embedded as `Nat`; the wrapping operations of
  `double_hash` apply `% 2 ^ 64` explicitly.  A Rust panic (assertion
  failure, remainder by zero, out-of-range bit access) is embedded as
  `none`; total functions stay total.
* Items reach the filter only through `Bloom::hashes`, which produces the
  pair of 64-bit XXHash digests `(h0, h1)` determined by the item and the
  two seeds.  The XXHash64 computation lives in an external crate, so an
  item is represented by its digest pair `hashes : Nat × Nat`, exactly
  the data the filter operations consume.
* `rand::random` seed draws and the two floating-point computations
  (`compute_bitmap_size`'s sizing formula and the `ceil` inside
  `optimal_k_num`) are nondeterministic or float-valued, hence passed in
  as explicit parameters; the surrounding integer logic (the assertion
  guards, the multiplication by 8, `cmp::max(k, 1)`) is embedded exactly.
-/

namespace XxBloom

/-- The modulus of `u64` arithmetic. -/
def U64MOD : Nat := 2 ^ 64

/-- Wrapping reduction of a `Nat` into `u64` range, used by the
`wrapping_add` / `wrapping_mul` operations of `double_hash`. -/
def wrap64 (n : Nat) : Nat := n % U64MOD

/-- Embedding of `struct Bloom`: the bitmap (a `BitVec`), the recorded
number of bits `bitmap_size`, the probe count `k` and the seed pair.
The derived `XxHash64` instances are functions of the seeds and carry no
further state, so they are not stored. -/
structure Bloom where
  bitmap : List Bool
  bitmap_size : Nat
  k : Nat
  seeds : Nat × Nat
deriving Repr, DecidableEq

/-- Embedding of `struct SerdeBloom`: the bitmap packed into bytes plus
the sizing fields and seeds. -/
structure SerdeBloom where
  bitmap : List Nat
  bitmap_size : Nat
  k : Nat
  seeds : Nat × Nat
deriving Repr, DecidableEq

/-- `Bloom::double_hash`: `hashes.0.wrapping_add(i_k.wrapping_mul(hashes.1))
% self.bitmap_size`.  The remainder panics (`none`) when `bitmap_size = 0`. -/
def Bloom.double_hash (b : Bloom) (hashes : Nat × Nat) (i_k : Nat) : Option Nat :=
  if b.bitmap_size = 0 then none
  else some (wrap64 (hashes.1 + wrap64 (i_k * hashes.2)) % b.bitmap_size)

/-- `Bloom::bit_offset`: `(self.double_hash(hashes, i_k) % self.bitmap_size)
as usize`.  The second remainder likewise panics when `bitmap_size = 0`. -/
def Bloom.bit_offset (b : Bloom) (hashes : Nat × Nat) (i_k : Nat) : Option Nat :=
  (b.double_hash hashes i_k).bind fun d =>
    if b.bitmap_size = 0 then none else some (d % b.bitmap_size)

/-- One `self.bitmap.set(bit_offset, true)` step; `BitVec::set` panics when
the index is out of range. -/
def Bloom.setBit (b : Bloom) (off : Nat) : Option Bloom :=
  if off < b.bitmap.length then some { b with bitmap := b.bitmap.set off true }
  else none

/-- The loop body of `Bloom::add` over the remaining probe indices. -/
def Bloom.addAux (b : Bloom) (hashes : Nat × Nat) : List Nat → Option Bloom
  | [] => some b
  | i_k :: rest =>
    match b.bit_offset hashes i_k with
    | none => none
    | some off =>
      match b.setBit off with
      | none => none
      | some b1 => b1.addAux hashes rest

/-- `Bloom::add`: set the bit at `bit_offset(hashes, i_k)` for every
`i_k in 0..k`. -/
def Bloom.add (b : Bloom) (hashes : Nat × Nat) : Option Bloom :=
  b.addAux hashes (List.range b.k)

/-- The loop body of `Bloom::check`: return `false` at the first probed bit
that is `false` (short-circuit), panic (`none`) at an out-of-range read. -/
def Bloom.checkAux (b : Bloom) (hashes : Nat × Nat) : List Nat → Option Bool
  | [] => some true
  | i_k :: rest =>
    match b.bit_offset hashes i_k with
    | none => none
    | some off =>
      match b.bitmap[off]? with
      | none => none
      | some bit => if bit then b.checkAux hashes rest else some false

/-- `Bloom::check`: probe `bit_offset(hashes, i_k)` for every `i_k in 0..k`. -/
def Bloom.check (b : Bloom) (hashes : Nat × Nat) : Option Bool :=
  b.checkAux hashes (List.range b.k)

/-- The loop body of `Bloom::check_and_add`: read each probed bit on the
current (already partially mutated) bitmap, clearing `found` and setting
the bit when it reads `false`. -/
def Bloom.checkAndAddAux (b : Bloom) (hashes : Nat × Nat) (found : Bool) :
    List Nat → Option (Bool × Bloom)
  | [] => some (found, b)
  | i_k :: rest =>
    match b.bit_offset hashes i_k with
    | none => none
    | some off =>
      match b.bitmap[off]? with
      | none => none
      | some bit =>
        if bit then b.checkAndAddAux hashes found rest
        else Bloom.checkAndAddAux
          { b with bitmap := b.bitmap.set off true } hashes false rest

/-- `Bloom::check_and_add`: single pass over `0..k` that both reads the
prior state and performs the mutation, returning the prior-presence flag
together with the final filter state. -/
def Bloom.check_and_add (b : Bloom) (hashes : Nat × Nat) : Option (Bool × Bloom) :=
  b.checkAndAddAux hashes true (List.range b.k)

/-- `Bloom::clear`: `BitVec::clear` zeroes the backing storage, i.e. sets
every bit to `false` while keeping the length. -/
def Bloom.clear (b : Bloom) : Bloom :=
  { b with bitmap := b.bitmap.map fun _ => false }

/-- `Bloom::number_of_bits`. -/
def Bloom.number_of_bits (b : Bloom) : Nat := b.bitmap_size

/-- `Bloom::number_of_hash_functions`. -/
def Bloom.number_of_hash_functions (b : Bloom) : Nat := b.k

/-- `Bloom::optimal_k_num`: the floating-point quantity
`ceil((m / n) * ln 2) as u64` is not representable in this integer
embedding and is passed in as `kRaw`; the source then takes
`cmp::max(k, 1)`. -/
def Bloom.optimal_k_num (kRaw : Nat) : Nat := max kRaw 1

/-- `Bloom::new(bitmap_size, items_count)`: assert both positive (panic
embedded as `none`), multiply the byte count by 8, derive `k`, allocate an
all-false bitmap of that many bits.  The two random seed draws are passed
in as `seeds`; `kRaw` abstracts the floating-point part of
`optimal_k_num`. -/
def Bloom.new (bitmap_size items_count : Nat) (kRaw : Nat) (seeds : Nat × Nat) :
    Option Bloom :=
  if 0 < bitmap_size ∧ 0 < items_count then
    some { bitmap := List.replicate (bitmap_size * 8) false
           bitmap_size := bitmap_size * 8
           k := Bloom.optimal_k_num kRaw
           seeds := seeds }
  else none

/-- `Bloom::compute_bitmap_size`: assert `items_count > 0` and
`0 < fp_p < 1` (panic embedded as `none`).  The comparisons are embedded
over `ℚ`; the floating-point sizing formula
`ceil(items_count * ln(fp_p) / (-8 * ln2 * ln2)) as usize` is abstracted
as the parameter `sizeRaw`. -/
def Bloom.compute_bitmap_size (items_count : Nat) (fp_p : ℚ) (sizeRaw : Nat) :
    Option Nat :=
  if 0 < items_count ∧ 0 < fp_p ∧ fp_p < 1 then some sizeRaw else none

/-- `Bloom::new_with_rate`: compute the byte count, then delegate to
`Bloom::new`. -/
def Bloom.new_with_rate (items_count : Nat) (fp_p : ℚ) (sizeRaw kRaw : Nat)
    (seeds : Nat × Nat) : Option Bloom :=
  (Bloom.compute_bitmap_size items_count fp_p sizeRaw).bind fun bs =>
    Bloom.new bs items_count kRaw seeds

/-- One byte unpacked most-significant-bit first, as in
`BitVec::from_bytes`. -/
def byteToBits (byte : Nat) : List Bool :=
  (List.range 8).map fun i => byte.testBit (7 - i)

/-- `BitVec::from_bytes`: concatenation of the MSB-first unpackings of
the bytes; the resulting bit vector has `8 * bytes.length` bits. -/
def bytesToBits (bytes : List Nat) : List Bool :=
  (bytes.map byteToBits).flatten

/-- Pack up to eight bits into one byte, MSB first, padding with `false`,
as in `BitVec::to_bytes`. -/
def byteOfBits (bits : List Bool) : Nat :=
  (bits ++ List.replicate (8 - bits.length) false).foldl
    (fun acc bit => 2 * acc + (if bit then 1 else 0)) 0

/-- `BitVec::to_bytes`: pack the bits into bytes, eight at a time, MSB
first, padding the final partial byte with `false`. -/
def bitsToBytes (bits : List Bool) : List Nat :=
  if bits.isEmpty then []
  else byteOfBits (bits.take 8) :: bitsToBytes (bits.drop 8)
termination_by bits.length
decreasing_by
  simp only [List.length_drop]
  cases bits with
  | nil => simp_all
  | cons a t => simp; omega

/-- `Bloom::from_existing(bitmap, bitmap_size, k, seeds)`: store the
supplied fields verbatim and unpack the bytes with
`BitVec::from_bytes`; no consistency validation is performed. -/
def Bloom.from_existing (bitmap : List Nat) (bitmap_size k : Nat)
    (seeds : Nat × Nat) : Bloom :=
  { bitmap := bytesToBits bitmap
    bitmap_size := bitmap_size
    k := k
    seeds := seeds }

/-- `impl From<&Bloom> for SerdeBloom`: pack the bitmap with `to_bytes`
and copy the remaining fields. -/
def SerdeBloom.ofBloom (b : Bloom) : SerdeBloom :=
  { bitmap := bitsToBytes b.bitmap
    bitmap_size := b.bitmap_size
    k := b.k
    seeds := b.seeds }

/-- `impl From<&SerdeBloom> for Bloom`: delegate to `from_existing`. -/
def Bloom.ofSerde (sb : SerdeBloom) : Bloom :=
  Bloom.from_existing sb.bitmap sb.bitmap_size sb.k sb.seeds

/-- The public operations that mutate or read a constructed filter, used
to quantify over every reachable state. -/
inductive Op where
  | add : Nat × Nat → Op
  | check : Nat × Nat → Op
  | check_and_add : Nat × Nat → Op
  | clear : Op
deriving Repr, DecidableEq

/-- Run one operation, keeping the (possibly mutated) filter state. -/
def runOp (b : Bloom) : Op → Option Bloom
  | Op.add hs => b.add hs
  | Op.check hs => (b.check hs).map fun _ => b
  | Op.check_and_add hs => (b.check_and_add hs).map Prod.snd
  | Op.clear => some b.clear

/-- Run a sequence of operations. -/
def runOps (b : Bloom) : List Op → Option Bloom
  | [] => some b
  | op :: rest =>
    match runOp b op with
    | none => none
    | some b1 => runOps b1 rest

/-- A sequence of `add` calls, as in the persistence part of the
no-false-negatives property. -/
def Bloom.addAll (b : Bloom) : List (Nat × Nat) → Option Bloom
  | [] => some b
  | hs :: rest =>
    match b.add hs with
    | none => none
    | some b1 => b1.addAll rest

/-- The value `bit_offset` computes when `m > 0`: the double-hash probe
position `(h0 + i * h1) mod m` with 64-bit wrapping arithmetic. -/
def offVal (m : Nat) (hashes : Nat × Nat) (i : Nat) : Nat :=
  wrap64 (hashes.1 + wrap64 (i * hashes.2)) % m

/-- Set the probed bit for every index in the list (the pure content of
the `add` loop). -/
def setOffsets (m : Nat) (hashes : Nat × Nat) (l : List Bool) : List Nat → List Bool
  | [] => l
  | i :: rest => setOffsets m hashes (l.set (offVal m hashes i) true) rest

/-- All probed bits read `true` (the pure content of the `check` loop). -/
def probesTrue (b : Bloom) (hashes : Nat × Nat) (idxs : List Nat) : Bool :=
  idxs.all fun i => (b.bitmap[offVal b.bitmap_size hashes i]?).getD false

/-- The invariant every filter produced by `Bloom::new` enjoys: the
recorded bit count is positive and matches the bitmap's length. -/
def WF (b : Bloom) : Prop :=
  b.bitmap.length = b.bitmap_size ∧ 0 < b.bitmap_size

/-- The sizing fields, seeds and bitmap length are preserved. -/
def SameShape (b b' : Bloom) : Prop :=
  b'.bitmap_size = b.bitmap_size ∧ b'.k = b.k ∧ b'.seeds = b.seeds ∧
    b'.bitmap.length = b.bitmap.length

theorem SameShape.refl (b : Bloom) : SameShape b b :=
  ⟨rfl, rfl, rfl, rfl⟩

theorem SameShape.trans {a b c : Bloom} (h1 : SameShape a b) (h2 : SameShape b c) :
    SameShape a c :=
  ⟨h2.1.trans h1.1, h2.2.1.trans h1.2.1, h2.2.2.1.trans h1.2.2.1,
    h2.2.2.2.trans h1.2.2.2⟩

theorem offVal_lt {m : Nat} (hm : 0 < m) (hashes : Nat × Nat) (i : Nat) :
    offVal m hashes i < m :=
  Nat.mod_lt _ hm

theorem bit_offset_eq (b : Bloom) (hm : 0 < b.bitmap_size) (hashes : Nat × Nat)
    (i : Nat) : b.bit_offset hashes i = some (offVal b.bitmap_size hashes i) := by
  have hne : b.bitmap_size ≠ 0 := Nat.pos_iff_ne_zero.mp hm
  simp only [Bloom.bit_offset, Bloom.double_hash, hne, if_false, Option.some_bind]
  exact congrArg some (Nat.mod_eq_of_lt (offVal_lt hm hashes i))

theorem bit_offset_none (b : Bloom) (hm : b.bitmap_size = 0) (hashes : Nat × Nat)
    (i : Nat) : b.bit_offset hashes i = none := by
  simp [Bloom.bit_offset, Bloom.double_hash, hm]

theorem setOffsets_length (m : Nat) (hashes : Nat × Nat) :
    ∀ (idxs : List Nat) (l : List Bool),
      (setOffsets m hashes l idxs).length = l.length := by
  intro idxs
  induction idxs with
  | nil => intro l; rfl
  | cons i rest ih =>
    intro l
    simp only [setOffsets, ih, List.length_set]

theorem set_true_getElem?_mono {l : List Bool} {j i : Nat}
    (h : l[j]? = some true) : (l.set i true)[j]? = some true := by
  rw [List.getElem?_set]
  split
  · next heq =>
    subst heq
    have : i < l.length := by
      by_contra hcon
      rw [List.getElem?_eq_none (Nat.le_of_not_lt hcon)] at h
      exact Option.noConfusion h
    simp [this]
  · exact h

theorem setOffsets_mono (m : Nat) (hashes : Nat × Nat) :
    ∀ (idxs : List Nat) (l : List Bool) (j : Nat),
      l[j]? = some true → (setOffsets m hashes l idxs)[j]? = some true := by
  intro idxs
  induction idxs with
  | nil => intro l j h; exact h
  | cons i rest ih =>
    intro l j h
    exact ih _ j (set_true_getElem?_mono h)

theorem setOffsets_probed (m : Nat) (hashes : Nat × Nat) :
    ∀ (idxs : List Nat) (l : List Bool) (i : Nat), i ∈ idxs →
      offVal m hashes i < l.length →
      (setOffsets m hashes l idxs)[offVal m hashes i]? = some true := by
  intro idxs
  induction idxs with
  | nil => intro l i hmem; exact absurd hmem (List.not_mem_nil i)
  | cons i0 rest ih =>
    intro l i hmem hlt
    rcases List.mem_cons.mp hmem with heq | hmem'
    · subst heq
      exact setOffsets_mono m hashes rest _ _ (List.getElem?_set_self hlt)
    · exact ih _ i hmem' (by simpa using hlt)

theorem set_true_self : ∀ (l : List Bool) (j : Nat),
    l[j]? = some true → l.set j true = l := by
  intro l
  induction l with
  | nil => intro j h; simp at h
  | cons a t ih =>
    intro j h
    cases j with
    | zero =>
      simp only [List.getElem?_cons_zero, Option.some_inj] at h
      simp [List.set, h]
    | succ j' =>
      simp only [List.getElem?_cons_succ] at h
      simp [List.set, ih j' h]

theorem checkAux_eq (hashes : Nat × Nat) :
    ∀ (idxs : List Nat) (b : Bloom), 0 < b.bitmap_size →
      b.bitmap.length = b.bitmap_size →
      b.checkAux hashes idxs = some (probesTrue b hashes idxs) := by
  intro idxs
  induction idxs with
  | nil => intro b hm hlen; simp [Bloom.checkAux, probesTrue]
  | cons i rest ih =>
    intro b hm hlen
    have hoff : offVal b.bitmap_size hashes i < b.bitmap.length :=
      hlen ▸ offVal_lt hm hashes i
    have hget : b.bitmap[offVal b.bitmap_size hashes i]? =
        some b.bitmap[offVal b.bitmap_size hashes i] :=
      List.getElem?_eq_getElem hoff
    simp only [Bloom.checkAux, bit_offset_eq b hm hashes i, hget]
    cases hbit : b.bitmap[offVal b.bitmap_size hashes i] with
    | true =>
      simp only [if_true, ih b hm hlen, probesTrue, List.all_cons, hget, hbit,
        Option.getD_some, Bool.true_and]
    | false =>
      simp [probesTrue, hget, hbit]

theorem addAux_eq (hashes : Nat × Nat) :
    ∀ (idxs : List Nat) (b : Bloom), 0 < b.bitmap_size →
      b.bitmap.length = b.bitmap_size →
      b.addAux hashes idxs =
        some { b with bitmap := setOffsets b.bitmap_size hashes b.bitmap idxs } := by
  intro idxs
  induction idxs with
  | nil => intro b hm hlen; simp [Bloom.addAux, setOffsets]
  | cons i rest ih =>
    intro b hm hlen
    have hoff : offVal b.bitmap_size hashes i < b.bitmap.length :=
      hlen ▸ offVal_lt hm hashes i
    have hset : b.setBit (offVal b.bitmap_size hashes i) =
        some { b with bitmap := b.bitmap.set (offVal b.bitmap_size hashes i) true } := by
      simp [Bloom.setBit, hoff]
    have ih1 := ih { b with
        bitmap := b.bitmap.set (offVal b.bitmap_size hashes i) true }
      (by simpa using hm) (by simpa using hlen)
    simp only [Bloom.addAux, bit_offset_eq b hm hashes i, hset, ih1, setOffsets]

theorem checkAndAddAux_eq (hashes : Nat × Nat) :
    ∀ (idxs : List Nat) (b : Bloom) (found : Bool), 0 < b.bitmap_size →
      b.bitmap.length = b.bitmap_size →
      b.checkAndAddAux hashes found idxs =
        some (found && probesTrue b hashes idxs,
          { b with bitmap := setOffsets b.bitmap_size hashes b.bitmap idxs }) := by
  intro idxs
  induction idxs with
  | nil =>
    intro b found hm hlen
    simp [Bloom.checkAndAddAux, probesTrue, setOffsets]
  | cons i rest ih =>
    intro b found hm hlen
    have hoff : offVal b.bitmap_size hashes i < b.bitmap.length :=
      hlen ▸ offVal_lt hm hashes i
    have hget : b.bitmap[offVal b.bitmap_size hashes i]? =
        some b.bitmap[offVal b.bitmap_size hashes i] :=
      List.getElem?_eq_getElem hoff
    simp only [Bloom.checkAndAddAux, bit_offset_eq b hm hashes i, hget]
    cases hbit : b.bitmap[offVal b.bitmap_size hashes i] with
    | true =>
      have hsame : b.bitmap.set (offVal b.bitmap_size hashes i) true = b.bitmap :=
        set_true_self _ _ (hbit ▸ hget)
      simp only [if_true, ih b found hm hlen, probesTrue, List.all_cons, hget,
        hbit, Option.getD_some, Bool.true_and, setOffsets, hsame]
    | false =>
      have ih1 := ih { b with
          bitmap := b.bitmap.set (offVal b.bitmap_size hashes i) true } false
        (by simpa using hm) (by simpa using hlen)
      simp only [if_false, ih1, probesTrue, List.all_cons, hget, hbit,
        Option.getD_some, Bool.false_and, Bool.and_false, setOffsets]
      simp

theorem check_eq (b : Bloom) (hm : 0 < b.bitmap_size)
    (hlen : b.bitmap.length = b.bitmap_size) (hashes : Nat × Nat) :
    b.check hashes = some (probesTrue b hashes (List.range b.k)) :=
  checkAux_eq hashes (List.range b.k) b hm hlen

theorem add_eq (b : Bloom) (hm : 0 < b.bitmap_size)
    (hlen : b.bitmap.length = b.bitmap_size) (hashes : Nat × Nat) :
    b.add hashes =
      some { b with
        bitmap := setOffsets b.bitmap_size hashes b.bitmap (List.range b.k) } :=
  addAux_eq hashes (List.range b.k) b hm hlen

theorem check_and_add_eq (b : Bloom) (hm : 0 < b.bitmap_size)
    (hlen : b.bitmap.length = b.bitmap_size) (hashes : Nat × Nat) :
    b.check_and_add hashes =
      some (probesTrue b hashes (List.range b.k),
        { b with
          bitmap := setOffsets b.bitmap_size hashes b.bitmap (List.range b.k) }) := by
  have h := checkAndAddAux_eq hashes (List.range b.k) b true hm hlen
  simpa [Bloom.check_and_add] using h

theorem new_elim {bs ic kRaw : Nat} {sd : Nat × Nat} {b : Bloom}
    (h : Bloom.new bs ic kRaw sd = some b) :
    0 < bs ∧ 0 < ic ∧
      b = { bitmap := List.replicate (bs * 8) false
            bitmap_size := bs * 8
            k := max kRaw 1
            seeds := sd } := by
  unfold Bloom.new Bloom.optimal_k_num at h
  split at h
  · next hpos =>
    exact ⟨hpos.1, hpos.2, (Option.some_inj.mp h).symm⟩
  · exact Option.noConfusion h

theorem WF_of_new {bs ic kRaw : Nat} {sd : Nat × Nat} {b : Bloom}
    (h : Bloom.new bs ic kRaw sd = some b) :
    WF b ∧ 1 ≤ b.k ∧ 8 ∣ b.bitmap.length := by
  obtain ⟨hbs, _, hb⟩ := new_elim h
  subst hb
  refine ⟨⟨by simp, by simpa using hbs⟩, le_max_right _ _, ?_⟩
  simp [Nat.dvd_mul_left]

theorem add_shape {b b' : Bloom} {hashes : Nat × Nat} (hwf : WF b)
    (h : b.add hashes = some b') :
    WF b' ∧ SameShape b b' ∧
      (∀ j : Nat, b.bitmap[j]? = some true → b'.bitmap[j]? = some true) ∧
      (∀ i, i ∈ List.range b.k →
        b'.bitmap[offVal b.bitmap_size hashes i]? = some true) := by
  obtain ⟨hlen, hm⟩ := hwf
  rw [add_eq b hm hlen hashes] at h
  obtain rfl : _ = b' := Option.some_inj.mp h
  have hslen : (setOffsets b.bitmap_size hashes b.bitmap (List.range b.k)).length
      = b.bitmap.length := setOffsets_length _ _ _ _
  refine ⟨⟨by simpa using hslen.trans hlen, hm⟩, ⟨rfl, rfl, rfl, by simpa using hslen⟩,
    ?_, ?_⟩
  · intro j hj
    simpa using setOffsets_mono b.bitmap_size hashes (List.range b.k) b.bitmap j hj
  · intro i hi
    simpa using setOffsets_probed b.bitmap_size hashes (List.range b.k) b.bitmap i hi
      (hlen ▸ offVal_lt hm hashes i)

theorem addAll_shape {b : Bloom} (hwf : WF b) :
    ∀ items : List (Nat × Nat), ∃ b', b.addAll items = some b' ∧ WF b' ∧
      SameShape b b' ∧
      (∀ j : Nat, b.bitmap[j]? = some true → b'.bitmap[j]? = some true) := by
  intro items
  induction items generalizing b with
  | nil => exact ⟨b, rfl, hwf, SameShape.refl b, fun j hj => hj⟩
  | cons hs rest ih =>
    obtain ⟨hlen, hm⟩ := hwf
    have hadd := add_eq b hm hlen hs
    obtain ⟨hwf1, hshape1, hmono1, _⟩ := add_shape ⟨hlen, hm⟩ hadd
    obtain ⟨b', hrun, hwf', hshape', hmono'⟩ := ih hwf1
    refine ⟨b', ?_, hwf', hshape1.trans hshape', fun j hj => hmono' j (hmono1 j hj)⟩
    simp only [Bloom.addAll, hadd, hrun]

theorem runOp_shape {b : Bloom} (hwf : WF b) (op : Op) :
    ∃ b', runOp b op = some b' ∧ WF b' ∧ SameShape b b' := by
  obtain ⟨hlen, hm⟩ := hwf
  cases op with
  | add hs =>
    obtain ⟨hwf', hshape', _, _⟩ := add_shape ⟨hlen, hm⟩ (add_eq b hm hlen hs)
    exact ⟨_, add_eq b hm hlen hs, hwf', hshape'⟩
  | check hs =>
    refine ⟨b, ?_, ⟨hlen, hm⟩, SameShape.refl b⟩
    simp [runOp, check_eq b hm hlen hs]
  | check_and_add hs =>
    have hslen : (setOffsets b.bitmap_size hs b.bitmap (List.range b.k)).length
        = b.bitmap.length := setOffsets_length _ _ _ _
    refine ⟨{ b with
        bitmap := setOffsets b.bitmap_size hs b.bitmap (List.range b.k) }, ?_, ?_, ?_⟩
    · simp [runOp, check_and_add_eq b hm hlen hs]
    · exact ⟨by simpa using hslen.trans hlen, hm⟩
    · exact ⟨rfl, rfl, rfl, by simpa using hslen⟩
  | clear =>
    refine ⟨b.clear, rfl, ⟨?_, hm⟩, ⟨rfl, rfl, rfl, ?_⟩⟩
    · simpa [Bloom.clear] using hlen
    · simp [Bloom.clear]

theorem runOps_shape {b : Bloom} (hwf : WF b) :
    ∀ ops : List Op, ∃ b', runOps b ops = some b' ∧ WF b' ∧ SameShape b b' := by
  intro ops
  induction ops generalizing b with
  | nil => exact ⟨b, rfl, hwf, SameShape.refl b⟩
  | cons op rest ih =>
    obtain ⟨b1, hop, hwf1, hshape1⟩ := runOp_shape hwf op
    obtain ⟨b', hrest, hwf', hshape'⟩ := ih hwf1
    refine ⟨b', ?_, hwf', hshape1.trans hshape'⟩
    simp only [runOps, hop, hrest]

theorem byteToBits_explicit (x : Nat) :
    byteToBits x = [x.testBit 7, x.testBit 6, x.testBit 5, x.testBit 4,
      x.testBit 3, x.testBit 2, x.testBit 1, x.testBit 0] := rfl

theorem byteToBits_length (x : Nat) : (byteToBits x).length = 8 := rfl

theorem bytesToBits_nil : bytesToBits [] = [] := rfl

theorem bytesToBits_cons (x : Nat) (xs : List Nat) :
    bytesToBits (x :: xs) = byteToBits x ++ bytesToBits xs := rfl

theorem bytesToBits_length : ∀ bytes : List Nat,
    (bytesToBits bytes).length = 8 * bytes.length := by
  intro bytes
  induction bytes with
  | nil => rfl
  | cons x xs ih =>
    simp only [bytesToBits_cons, List.length_append, byteToBits_length, ih,
      List.length_cons]
    ring

theorem bytesToBits_getElem? : ∀ (bytes : List Nat) (j : Nat),
    j < 8 * bytes.length →
      (bytesToBits bytes)[j]? =
        some ((bytes.getD (j / 8) 0).testBit (7 - j % 8)) := by
  intro bytes
  induction bytes with
  | nil => intro j h; simp only [List.length_nil] at h; omega
  | cons x xs ih =>
    intro j h
    rw [bytesToBits_cons, List.getElem?_append]
    by_cases hj : j < 8
    · rw [if_pos (by simpa [byteToBits_length] using hj)]
      have hgd : (x :: xs).getD (j / 8) 0 = x := by
        have : j / 8 = 0 := Nat.div_eq_of_lt hj
        simp [this]
      rw [hgd]
      interval_cases j <;> simp [byteToBits_explicit]
    · rw [if_neg (by simpa [byteToBits_length] using hj)]
      have hj8 : 8 ≤ j := Nat.le_of_not_lt hj
      have hlen : j - (byteToBits x).length = j - 8 := by rw [byteToBits_length]
      rw [hlen, ih (j - 8) (by simp at h ⊢; omega)]
      have hgd : (x :: xs).getD (j / 8) 0 = xs.getD ((j - 8) / 8) 0 := by
        have hdiv : j / 8 = (j - 8) / 8 + 1 := by omega
        simp [hdiv]
      have hmod : (j - 8) % 8 = j % 8 := by omega
      rw [hgd, hmod]

theorem byteToBits_byteOfBits8 :
    ∀ a b c d e f g h : Bool,
      byteToBits (byteOfBits [a, b, c, d, e, f, g, h]) =
        [a, b, c, d, e, f, g, h] := by decide

theorem bitsToBytes_nil : bitsToBytes [] = [] := by
  rw [bitsToBytes]
  rfl

theorem bitsToBytes_cons8 (a b c d e f g h : Bool) (rest : List Bool) :
    bitsToBytes (a :: b :: c :: d :: e :: f :: g :: h :: rest) =
      byteOfBits [a, b, c, d, e, f, g, h] :: bitsToBytes rest := by
  rw [bitsToBytes]
  simp [List.take_succ_cons, List.drop_succ_cons]

theorem bytesToBits_bitsToBytes : ∀ l : List Bool, 8 ∣ l.length →
    bytesToBits (bitsToBytes l) = l
  | [], _ => by rw [bitsToBytes_nil]; rfl
  | [a], hd => by simp only [List.length_cons, List.length_nil] at hd; omega
  | [a, b], hd => by simp only [List.length_cons, List.length_nil] at hd; omega
  | [a, b, c], hd => by simp only [List.length_cons, List.length_nil] at hd; omega
  | [a, b, c, d], hd => by simp only [List.length_cons, List.length_nil] at hd; omega
  | [a, b, c, d, e], hd => by simp only [List.length_cons, List.length_nil] at hd; omega
  | [a, b, c, d, e, f], hd => by simp only [List.length_cons, List.length_nil] at hd; omega
  | [a, b, c, d, e, f, g], hd => by simp only [List.length_cons, List.length_nil] at hd; omega
  | a :: b :: c :: d :: e :: f :: g :: h :: rest, hd => by
    have hd' : 8 ∣ rest.length := by simp at hd ⊢; omega
    have ih := bytesToBits_bitsToBytes rest hd'
    rw [bitsToBytes_cons8, bytesToBits_cons, byteToBits_byteOfBits8, ih]
    rfl

/-- Claim C6: for every filter with positive bit count `m`, every item
with base hashes `(h0, h1)` and every probe index `i` in `0..k`, the bit
position computed by `bit_offset` — the position probed by `add`, `check`
and `check_and_add` — equals `(h0 + i * h1) mod m`, with the addition and
multiplication wrapping modulo `2 ^ 64`. -/
theorem c6_probe_position_formula (b : Bloom) (h0 h1 i : Nat)
    (hm : 0 < b.bitmap_size) (_hi : i < b.k) :
    b.bit_offset (h0, h1) i = some (((h0 + i * h1) % U64MOD) % b.bitmap_size) := by
  rw [bit_offset_eq b hm (h0, h1) i]
  refine congrArg some ?_
  unfold offVal wrap64
  conv_lhs => rw [Nat.add_mod, Nat.mod_mod_of_dvd _ (dvd_refl U64MOD)]
  conv_rhs => rw [Nat.add_mod]

theorem c6_witness :
    (Bloom.mk (List.replicate 8 false) 8 2 (0, 0)).bit_offset (3, 5) 1 =
      some (((3 + 1 * 5) % U64MOD) % 8) :=
  c6_probe_position_formula (Bloom.mk (List.replicate 8 false) 8 2 (0, 0)) 3 5 1
    (by decide) (by decide)

/-- Claim C7: `new(bitmap_size, items_count)` refuses (panics) exactly when
`bitmap_size = 0` or `items_count = 0`, and `compute_bitmap_size` — hence
`new_with_rate` — refuses exactly when `items_count = 0` or the
false-positive rate is not strictly between 0 and 1; no other
construction input faults.  The hypothesis `0 < sizeRaw` records that the
floating-point sizing formula returns a positive byte count on every
accepted input (its ceiling is of a strictly positive real). -/
theorem c7_construction_faults (bs ic kRaw sizeRaw : Nat) (sd : Nat × Nat)
    (p : ℚ) (hsz : 0 < sizeRaw) :
    ((Bloom.new bs ic kRaw sd).isSome ↔ 0 < bs ∧ 0 < ic) ∧
    ((Bloom.compute_bitmap_size ic p sizeRaw).isSome ↔
      0 < ic ∧ 0 < p ∧ p < 1) ∧
    ((Bloom.new_with_rate ic p sizeRaw kRaw sd).isSome ↔
      0 < ic ∧ 0 < p ∧ p < 1) := by
  refine ⟨?_, ?_, ?_⟩
  · unfold Bloom.new
    split <;> simp_all
  · unfold Bloom.compute_bitmap_size
    split <;> simp_all
  · unfold Bloom.new_with_rate Bloom.compute_bitmap_size Bloom.new
    split
    · simp_all
    · simp_all

theorem c7_witness :
    ((Bloom.new 2 3 0 (0, 0)).isSome ↔ 0 < 2 ∧ 0 < 3) ∧
    ((Bloom.compute_bitmap_size 3 (1 / 2) 5).isSome ↔
      0 < 3 ∧ 0 < (1 / 2 : ℚ) ∧ (1 / 2 : ℚ) < 1) ∧
    ((Bloom.new_with_rate 3 (1 / 2) 5 0 (0, 0)).isSome ↔
      0 < 3 ∧ 0 < (1 / 2 : ℚ) ∧ (1 / 2 : ℚ) < 1) :=
  c7_construction_faults 2 3 0 5 (0, 0) (1 / 2) (by decide)

/-- Claim C8 counterexample: `from_existing` does not truncate or
reconstruct the bit array to exactly `m` bits — importing one byte with
`bitmap_size = 3` yields a bit array of 8 bits, not 3. -/
theorem c8_counterexample :
    ¬ ((Bloom.from_existing [255] 3 1 (0, 0)).bitmap.length = 3) := by decide

/-- Claim C8 amended: `from_existing(bitmap_bytes, m, k, seeds)` stores
`m`, `k` and the seeds verbatim, and its internal bit array is the
MSB-first unpacking of `bitmap_bytes` of length exactly
`8 * bitmap_bytes.length` — it is not truncated or padded to `m` bits. -/
theorem c8_import_unpacks (bytes : List Nat) (m k : Nat) (s : Nat × Nat) :
    (Bloom.from_existing bytes m k s).bitmap_size = m ∧
    (Bloom.from_existing bytes m k s).k = k ∧
    (Bloom.from_existing bytes m k s).seeds = s ∧
    (Bloom.from_existing bytes m k s).bitmap.length = 8 * bytes.length ∧
    ∀ j : Nat, j < 8 * bytes.length →
      (Bloom.from_existing bytes m k s).bitmap[j]? =
        some ((bytes.getD (j / 8) 0).testBit (7 - j % 8)) := by
  refine ⟨rfl, rfl, rfl, bytesToBits_length bytes, ?_⟩
  intro j hj
  exact bytesToBits_getElem? bytes j hj

theorem c8_witness :
    (Bloom.from_existing [165] 3 1 (0, 0)).bitmap[2]? =
      some ((([165] : List Nat).getD (2 / 8) 0).testBit (7 - 2 % 8)) :=
  (c8_import_unpacks [165] 3 1 (0, 0)).2.2.2.2 2 (by decide)

/-- Claim C9 counterexample: a filter imported with `bitmap_size = 0` and
`k = 0` accepts a `check` call that returns `true` instead of panicking,
so it is not the case that every subsequent `add`, `check` or
`check_and_add` call on a `bitmap_size = 0` import panics. -/
theorem c9_counterexample :
    (Bloom.from_existing [] 0 0 (0, 0)).check (0, 0) = some true := by decide

/-- Claim C9 amended: `from_existing` performs no consistency validation;
with `bitmap_size = 0` and at least one probe (`k ≥ 1`) every subsequent
`add`, `check` or `check_and_add` call panics with a remainder-by-zero in
`double_hash`, and with a bitmap shorter than `bitmap_size` bits `check`
can panic on an out-of-range bit offset instead of returning `false`. -/
theorem c9_no_validation (bytes : List Nat) (k : Nat) (s hs : Nat × Nat)
    (hk : 1 ≤ k) :
    ((Bloom.from_existing bytes 0 k s).add hs = none ∧
      (Bloom.from_existing bytes 0 k s).check hs = none ∧
      (Bloom.from_existing bytes 0 k s).check_and_add hs = none) ∧
    ∀ (bytes2 : List Nat) (m k2 : Nat) (s2 : Nat × Nat),
      8 * bytes2.length < m → m < U64MOD → 1 ≤ k2 →
      (Bloom.from_existing bytes2 m k2 s2).check (8 * bytes2.length, 0) = none := by
  constructor
  · obtain ⟨k1, rfl⟩ : ∃ k1, k = k1 + 1 := ⟨k - 1, by omega⟩
    have hoff : (Bloom.from_existing bytes 0 (k1 + 1) s).bit_offset hs 0 = none :=
      bit_offset_none _ rfl hs 0
    have hkB : (Bloom.from_existing bytes 0 (k1 + 1) s).k = k1 + 1 := rfl
    refine ⟨?_, ?_, ?_⟩
    · simp [Bloom.add, Bloom.addAux, hkB, List.range_succ_eq_map, hoff]
    · simp [Bloom.check, Bloom.checkAux, hkB, List.range_succ_eq_map, hoff]
    · simp [Bloom.check_and_add, Bloom.checkAndAddAux, hkB, List.range_succ_eq_map,
        hoff]
  · intro bytes2 m k2 s2 hlt hmU hk2
    obtain ⟨k3, rfl⟩ : ∃ k3, k2 = k3 + 1 := ⟨k2 - 1, by omega⟩
    have hm : 0 < m := by omega
    have hoffv : offVal m (8 * bytes2.length, 0) 0 = 8 * bytes2.length := by
      unfold offVal wrap64
      simp only [Nat.mul_zero, Nat.zero_mul, Nat.zero_mod, Nat.add_zero]
      rw [Nat.mod_eq_of_lt (by omega : 8 * bytes2.length < U64MOD)]
      exact Nat.mod_eq_of_lt hlt
    have hoff : (Bloom.from_existing bytes2 m (k3 + 1) s2).bit_offset
        (8 * bytes2.length, 0) 0 = some (8 * bytes2.length) := by
      rw [bit_offset_eq _ hm _ 0]
      exact congrArg some hoffv
    have hget : (Bloom.from_existing bytes2 m (k3 + 1) s2).bitmap[8 * bytes2.length]?
        = none :=
      List.getElem?_eq_none (le_of_eq (bytesToBits_length bytes2))
    have hkB : (Bloom.from_existing bytes2 m (k3 + 1) s2).k = k3 + 1 := rfl
    simp [Bloom.check, Bloom.checkAux, hkB, List.range_succ_eq_map, hoff, hget]

theorem c9_witness :
    ((Bloom.from_existing [0] 0 2 (0, 0)).add (3, 7) = none ∧
      (Bloom.from_existing [0] 0 2 (0, 0)).check (3, 7) = none ∧
      (Bloom.from_existing [0] 0 2 (0, 0)).check_and_add (3, 7) = none) ∧
    (Bloom.from_existing [0] 10 2 (0, 0)).check (8 * ([0] : List Nat).length, 0)
      = none :=
  And.intro (c9_no_validation [0] 2 (0, 0) (3, 7) (by decide)).1
    ((c9_no_validation [0] 2 (0, 0) (3, 7) (by decide)).2 [0] 10 2 (0, 0)
      (by decide) (by decide) (by decide))

/-- Claim C10: a filter imported via `from_existing` with `k = 0` (never
produced by `new`, whose `optimal_k_num` floors `k` at 1) makes `check`
return `true` for every item, makes `add` leave the filter unchanged, and
makes `check_and_add` return `true` while leaving the filter unchanged. -/
theorem c10_zero_k (bytes : List Nat) (m : Nat) (s hs : Nat × Nat) :
    (Bloom.from_existing bytes m 0 s).check hs = some true ∧
    (Bloom.from_existing bytes m 0 s).add hs =
      some (Bloom.from_existing bytes m 0 s) ∧
    (Bloom.from_existing bytes m 0 s).check_and_add hs =
      some (true, Bloom.from_existing bytes m 0 s) :=
  ⟨rfl, rfl, rfl⟩

theorem check_true_of_probes {b : Bloom} {hs : Nat × Nat}
    (hm : 0 < b.bitmap_size) (hlen : b.bitmap.length = b.bitmap_size)
    (hp : ∀ i, i ∈ List.range b.k →
      b.bitmap[offVal b.bitmap_size hs i]? = some true) :
    b.check hs = some true := by
  rw [check_eq b hm hlen hs]
  refine congrArg some ?_
  rw [probesTrue, List.all_eq_true]
  intro i hi
  rw [hp i hi]
  rfl

/-- Claim C1: for every filter constructed by `new(bit_bytes, items_count)`
(which requires `bit_bytes > 0` and `items_count > 0` to succeed), after
`add(x)` the call `check(x)` returns `true`, and it continues to return
`true` after any further sequence of `add` calls with arbitrary other
items. -/
theorem c1_no_false_negatives (bs ic kRaw : Nat) (sd hs : Nat × Nat)
    (others : List (Nat × Nat)) (b0 b1 b2 : Bloom)
    (hnew : Bloom.new bs ic kRaw sd = some b0)
    (hadd : b0.add hs = some b1)
    (hrest : b1.addAll others = some b2) :
    b2.check hs = some true := by
  obtain ⟨hwf0, _, _⟩ := WF_of_new hnew
  obtain ⟨hlen0, hm0⟩ := hwf0
  obtain ⟨hwf1, hshape1, _, hprobe1⟩ := add_shape ⟨hlen0, hm0⟩ hadd
  obtain ⟨b2x, hrestx, hwf2, hshape2, hmono2⟩ := addAll_shape hwf1 others
  rw [hrest] at hrestx
  obtain rfl : b2 = b2x := Option.some_inj.mp hrestx
  obtain ⟨hlen2, hm2⟩ := hwf2
  refine check_true_of_probes hm2 hlen2 ?_
  intro i hi
  have hk2 : b2.k = b0.k := hshape2.2.1.trans hshape1.2.1
  have hsz2 : b2.bitmap_size = b0.bitmap_size := hshape2.1.trans hshape1.1
  have hi0 : i ∈ List.range b0.k := hk2 ▸ hi
  have htrue1 : b1.bitmap[offVal b0.bitmap_size hs i]? = some true := hprobe1 i hi0
  rw [hsz2]
  exact hmono2 _ htrue1

theorem c1_witness :
    (Bloom.mk [false, false, false, true, false, true, false, false] 8 1 (0, 0)).check
      (3, 1) = some true :=
  c1_no_false_negatives 1 1 0 (0, 0) (3, 1) [(5, 2)]
    (Bloom.mk (List.replicate 8 false) 8 1 (0, 0))
    (Bloom.mk [false, false, false, true, false, false, false, false] 8 1 (0, 0))
    (Bloom.mk [false, false, false, true, false, true, false, false] 8 1 (0, 0))
    (by decide) (by decide) (by decide)

/-- Claim C2 counterexample: on the reachable state
`from_existing([0], 10, 2, seeds)` — whose bit array is 8 bits long while
`bitmap_size` is 10 — with an item whose second probe lands out of range,
`check` returns `false` but `check_and_add` panics, so `check_and_add`
does not return the value `check` would have returned. -/
theorem c2_counterexample :
    ¬ (((Bloom.from_existing [0] 10 2 (0, 0)).check_and_add (0, 8)).map Prod.fst =
        (Bloom.from_existing [0] 10 2 (0, 0)).check (0, 8)) := by decide

/-- Claim C2 amended: for every filter state whose bit-array length equals
its recorded `bitmap_size` (as holds for every filter produced by `new`,
and for every import whose bitmap matches its declared size), and every
item, `check_and_add` returns exactly the value `check` would have
returned on the state immediately before the call, the state after
`check_and_add` equals the state after `check` followed by `add`, and
afterwards `check` returns `true`. -/
theorem c2_test_and_set (b : Bloom) (hs : Nat × Nat)
    (hlen : b.bitmap.length = b.bitmap_size) :
    ((b.check_and_add hs).map Prod.fst = b.check hs) ∧
    ((b.check_and_add hs).map Prod.snd = b.add hs) ∧
    (∀ (r : Bool) (b' : Bloom), b.check_and_add hs = some (r, b') →
      b'.check hs = some true) := by
  by_cases hm : b.bitmap_size = 0
  · have hlen0 : b.bitmap.length = 0 := by rw [hlen, hm]
    cases hk : b.k with
    | zero =>
      refine ⟨?_, ?_, ?_⟩
      · simp [Bloom.check_and_add, Bloom.check, hk, List.range_zero,
          Bloom.checkAndAddAux, Bloom.checkAux]
      · simp [Bloom.check_and_add, Bloom.add, hk, List.range_zero,
          Bloom.checkAndAddAux, Bloom.addAux]
      · intro r b' h
        simp only [Bloom.check_and_add, hk, List.range_zero,
          Bloom.checkAndAddAux, Option.some_inj] at h
        obtain ⟨rfl, rfl⟩ : r = true ∧ b' = b := by
          exact ⟨congrArg Prod.fst h.symm, congrArg Prod.snd h.symm⟩
        simp [Bloom.check, hk, List.range_zero, Bloom.checkAux]
    | succ k1 =>
      have hoff : b.bit_offset hs 0 = none := bit_offset_none b hm hs 0
      refine ⟨?_, ?_, ?_⟩
      · simp [Bloom.check_and_add, Bloom.check, hk, List.range_succ_eq_map,
          Bloom.checkAndAddAux, Bloom.checkAux, hoff]
      · simp [Bloom.check_and_add, Bloom.add, hk, List.range_succ_eq_map,
          Bloom.checkAndAddAux, Bloom.addAux, hoff]
      · intro r b' h
        rw [Bloom.check_and_add, hk, List.range_succ_eq_map] at h
        simp [Bloom.checkAndAddAux, hoff] at h
  · have hmpos : 0 < b.bitmap_size := Nat.pos_of_ne_zero hm
    have hca := check_and_add_eq b hmpos hlen hs
    refine ⟨?_, ?_, ?_⟩
    · rw [hca, check_eq b hmpos hlen hs]
      rfl
    · rw [hca, add_eq b hmpos hlen hs]
      rfl
    · intro r b' h
      rw [hca] at h
      have hb' : b' =
          { b with
            bitmap := setOffsets b.bitmap_size hs b.bitmap (List.range b.k) } :=
        congrArg Prod.snd (Option.some_inj.mp h.symm)
      subst hb'
      have hslen : (setOffsets b.bitmap_size hs b.bitmap (List.range b.k)).length
          = b.bitmap.length := setOffsets_length _ _ _ _
      refine check_true_of_probes hmpos (by simpa using hslen.trans hlen) ?_
      intro i hi
      exact setOffsets_probed b.bitmap_size hs (List.range b.k) b.bitmap i hi
        (hlen ▸ offVal_lt hmpos hs i)

theorem c2_witness :
    ((Bloom.mk (List.replicate 8 false) 8 2 (0, 0)).check_and_add (3, 1)).map
        Prod.fst =
      (Bloom.mk (List.replicate 8 false) 8 2 (0, 0)).check (3, 1) :=
  (c2_test_and_set (Bloom.mk (List.replicate 8 false) 8 2 (0, 0)) (3, 1)
    (by decide)).1

/-- Claim C4: for every filter constructed successfully by `new` (and hence
`new_with_rate`, which delegates to it), in every state reachable by any
sequence of `add`, `check`, `check_and_add` and `clear` calls, every bit
index computed by `bit_offset` is strictly less than the bit-array length
— so the out-of-range panic branches and the remainder-by-zero in
`double_hash` are unreachable — and no operation can fail. -/
theorem c4_in_range_probing (bs ic kRaw : Nat) (sd : Nat × Nat) (b0 b : Bloom)
    (ops : List Op) (hnew : Bloom.new bs ic kRaw sd = some b0)
    (hreach : runOps b0 ops = some b) :
    (∀ (hs : Nat × Nat) (i : Nat), ∃ off : Nat,
      b.bit_offset hs i = some off ∧ off < b.bitmap.length) ∧
    (∀ op : Op, (runOp b op).isSome) := by
  obtain ⟨hwf0, _, _⟩ := WF_of_new hnew
  obtain ⟨bx, hrun, hwf, hshape⟩ := runOps_shape hwf0 ops
  rw [hreach] at hrun
  obtain rfl : b = bx := Option.some_inj.mp hrun
  obtain ⟨hlen, hm⟩ := hwf
  constructor
  · intro hs i
    exact ⟨offVal b.bitmap_size hs i, bit_offset_eq b hm hs i,
      hlen ▸ offVal_lt hm hs i⟩
  · intro op
    obtain ⟨b2, hop, _, _⟩ := runOp_shape ⟨hlen, hm⟩ op
    rw [hop]
    rfl

theorem c4_witness :
    ∃ off : Nat,
      (Bloom.mk (List.replicate 8 false) 8 1 (0, 0)).bit_offset (3, 5) 0 =
        some off ∧
      off < (Bloom.mk (List.replicate 8 false) 8 1 (0, 0)).bitmap.length :=
  (c4_in_range_probing 1 1 0 (0, 0) (Bloom.mk (List.replicate 8 false) 8 1 (0, 0))
    (Bloom.mk (List.replicate 8 false) 8 1 (0, 0)) [] (by decide) (by decide)).1
    (3, 5) 0

/-- Claim C3: for every filter constructed by `new` (or `new_with_rate`,
which delegates to it), in any reachable state, converting to a
`SerdeBloom` and back yields a filter with identical `check` results on
every item and identical `number_of_bits` and
`number_of_hash_functions`. -/
theorem c3_roundtrip_fidelity (bs ic kRaw : Nat) (sd : Nat × Nat) (b0 b : Bloom)
    (ops : List Op) (hnew : Bloom.new bs ic kRaw sd = some b0)
    (hreach : runOps b0 ops = some b) :
    (∀ hs : Nat × Nat,
      (Bloom.ofSerde (SerdeBloom.ofBloom b)).check hs = b.check hs) ∧
    (Bloom.ofSerde (SerdeBloom.ofBloom b)).number_of_bits = b.number_of_bits ∧
    (Bloom.ofSerde (SerdeBloom.ofBloom b)).number_of_hash_functions =
      b.number_of_hash_functions := by
  obtain ⟨hwf0, _, hdvd0⟩ := WF_of_new hnew
  obtain ⟨bx, hrun, hwf, hshape⟩ := runOps_shape hwf0 ops
  rw [hreach] at hrun
  obtain rfl : b = bx := Option.some_inj.mp hrun
  have hdvd : 8 ∣ b.bitmap.length := hshape.2.2.2 ▸ hdvd0
  have hb : Bloom.ofSerde (SerdeBloom.ofBloom b) = b := by
    show Bloom.mk (bytesToBits (bitsToBytes b.bitmap)) b.bitmap_size b.k b.seeds = b
    rw [bytesToBits_bitsToBytes b.bitmap hdvd]
  rw [hb]
  exact ⟨fun hs => rfl, rfl, rfl⟩

theorem c3_witness :
    (Bloom.ofSerde (SerdeBloom.ofBloom
        (Bloom.mk (List.replicate 8 false) 8 1 (0, 0)))).check (3, 5) =
      (Bloom.mk (List.replicate 8 false) 8 1 (0, 0)).check (3, 5) :=
  (c3_roundtrip_fidelity 1 1 0 (0, 0)
    (Bloom.mk (List.replicate 8 false) 8 1 (0, 0))
    (Bloom.mk (List.replicate 8 false) 8 1 (0, 0)) [] (by decide) (by decide)).1
    (3, 5)

/-- Claim C5 counterexample: the filter produced by `new(1, 1)` with seeds
`(0, 0)` and `kRaw = 0`, after `clear()` and a re-add of the item with
digest pair `(0, 0)`, reports `check = true` for the distinct,
never-re-added item with digest pair `(8, 0)` (both pairs probe bit 0 of
the 8-bit array), so `check(x)` is not `false` for every item `x` not
re-added since the clear. -/
theorem c5_counterexample :
    Bloom.new 1 1 0 (0, 0) =
      some (Bloom.mk (List.replicate 8 false) 8 1 (0, 0)) ∧
    ((8, 0) : Nat × Nat) ≠ (0, 0) ∧
    (Bloom.mk (List.replicate 8 false) 8 1 (0, 0)).clear.add (0, 0) =
      some (Bloom.mk (true :: List.replicate 7 false) 8 1 (0, 0)) ∧
    (Bloom.mk (true :: List.replicate 7 false) 8 1 (0, 0)).check (8, 0) =
      some true := by decide

/-- Claim C5 amended: for every filter constructed by `new` (or
`new_with_rate`), in any reachable state, after `clear()` every bit of
the bit array is `false` while `number_of_bits`,
`number_of_hash_functions` and the seeds are unchanged; consequently
`check(x)` returns `false` for every item `x` as long as no add has
occurred since the clear (once other items are re-added, a never-re-added
item may probe only re-set bits and be reported `true` — the ordinary
false-positive allowance). -/
theorem c5_clear_resets (bs ic kRaw : Nat) (sd : Nat × Nat) (b0 b : Bloom)
    (ops : List Op) (hnew : Bloom.new bs ic kRaw sd = some b0)
    (hreach : runOps b0 ops = some b) :
    (∀ j : Nat, j < b.clear.bitmap.length → b.clear.bitmap[j]? = some false) ∧
    b.clear.number_of_bits = b.number_of_bits ∧
    b.clear.number_of_hash_functions = b.number_of_hash_functions ∧
    b.clear.seeds = b.seeds ∧
    (∀ hs : Nat × Nat, b.clear.check hs = some false) := by
  obtain ⟨hwf0, hk0, _⟩ := WF_of_new hnew
  obtain ⟨bx, hrun, hwf, hshape⟩ := runOps_shape hwf0 ops
  rw [hreach] at hrun
  obtain rfl : b = bx := Option.some_inj.mp hrun
  obtain ⟨hlen, hm⟩ := hwf
  have hbit : ∀ j : Nat, j < b.clear.bitmap.length → b.clear.bitmap[j]? = some false := by
    intro j hj
    show (b.bitmap.map fun _ => false)[j]? = some false
    rw [List.getElem?_map]
    have hjb : j < b.bitmap.length := by
      simpa [Bloom.clear] using hj
    rw [List.getElem?_eq_getElem hjb]
    rfl
  refine ⟨hbit, rfl, rfl, rfl, ?_⟩
  intro hs
  have hlenc : b.clear.bitmap.length = b.clear.bitmap_size := by
    simpa [Bloom.clear] using hlen
  have hmc : 0 < b.clear.bitmap_size := hm
  rw [check_eq b.clear hmc hlenc hs]
  refine congrArg some ?_
  rw [probesTrue, List.all_eq_false]
  have hkb : 1 ≤ b.clear.k := hshape.2.1 ▸ hk0
  refine ⟨0, List.mem_range.mpr hkb, ?_⟩
  have hoff : offVal b.clear.bitmap_size hs 0 < b.clear.bitmap.length :=
    hlenc ▸ offVal_lt hmc hs 0
  rw [hbit _ hoff]
  simp

theorem c5_witness :
    (Bloom.mk (List.replicate 8 false) 8 1 (0, 0)).clear.check (3, 5) =
      some false :=
  (c5_clear_resets 1 1 0 (0, 0) (Bloom.mk (List.replicate 8 false) 8 1 (0, 0))
    (Bloom.mk (List.replicate 8 false) 8 1 (0, 0)) [] (by decide) (by decide)).2.2.2.2
    (3, 5)

end XxBloom
